import Mathlib

/-!
# Verification of the beetle code-search engine core

Shallow embedding of the parts of `crates/engine` that the specification's
claims are about, together with theorems settling those claims.

Conventions used throughout:
* Rust byte strings (`&[u8]`, `Vec<u8>`) are `List Nat` whose elements are
  `< 256`; machine integers (`u16`/`u32`/`u64`) are `Nat` with explicit
  `% 2^w` wherever the Rust code truncates (`as u16`, `as u32`, wrapping
  shifts on `u64`).
* Rust `String`s are their UTF-8 byte lists; equality of Rust strings is
  byte-list equality, which agrees with Rust `==` on `String`.
* Fallible Rust functions returning `Result` become `Except`.
* The filesystem, serde and tantivy are external to the crate; their
  observable behaviour at the call sites of the embedded functions is made
  explicit as function parameters (file contents, mtimes) or small state
  types (snapshot file, committed document store), following exactly what
  the engine code does with them.
-/

instance {ε α : Type _} [DecidableEq ε] [DecidableEq α] : DecidableEq (Except ε α)
  | .error e, .error f =>
    if h : e = f then .isTrue (by rw [h]) else .isFalse (by simp [h])
  | .error _, .ok _ => .isFalse (by simp)
  | .ok _, .error _ => .isFalse (by simp)
  | .ok a, .ok b =>
    if h : a = b then .isTrue (by rw [h]) else .isFalse (by simp [h])

namespace Beetle

/-! ## Big-endian byte encoding (byteorder::BigEndian)

`write_uNN::<BigEndian>` / `read_uNN::<BigEndian>` from the `byteorder`
crate, as used by `crates/engine/src/change.rs`. -/

/-- Big-endian bytes of `n % 256^w`, `w` bytes wide (`write_uNN::<BigEndian>`). -/
def toBytesBE : Nat → Nat → List Nat
  | 0, _ => []
  | w + 1, n => toBytesBE w (n / 256) ++ [n % 256]

/-- Big-endian read of a byte list (`read_uNN::<BigEndian>` /
`uNN::from_be_bytes`): the positional value of the digits in base 256. -/
def fromBytesBE : List Nat → Nat
  | [] => 0
  | b :: l => b * 256 ^ l.length + fromBytesBE l

@[simp] theorem toBytesBE_length (w n : Nat) : (toBytesBE w n).length = w := by
  induction w generalizing n with
  | zero => rfl
  | succ w ih => simp [toBytesBE, ih]

theorem toBytesBE_lt (w n : Nat) : ∀ b ∈ toBytesBE w n, b < 256 := by
  induction w generalizing n with
  | zero => simp [toBytesBE]
  | succ w ih =>
    intro b hb
    simp only [toBytesBE, List.mem_append, List.mem_singleton] at hb
    rcases hb with h | h
    · exact ih _ _ h
    · subst h; exact Nat.mod_lt _ (by omega)

theorem fromBytesBE_lt (l : List Nat) (h : ∀ b ∈ l, b < 256) :
    fromBytesBE l < 256 ^ l.length := by
  induction l with
  | nil => simp [fromBytesBE]
  | cons b bs ih =>
    have hb : b < 256 := h b (by simp)
    have hbs := ih (fun x hx => h x (by simp [hx]))
    rw [fromBytesBE]
    have h1 : b * 256 ^ bs.length ≤ 255 * 256 ^ bs.length :=
      Nat.mul_le_mul_right _ (by omega)
    calc b * 256 ^ bs.length + fromBytesBE bs
        < b * 256 ^ bs.length + 256 ^ bs.length := by omega
      _ ≤ 255 * 256 ^ bs.length + 256 ^ bs.length := by omega
      _ = 256 ^ (bs.length + 1) := by ring

theorem fromBytesBE_append_singleton (l : List Nat) (x : Nat) :
    fromBytesBE (l ++ [x]) = fromBytesBE l * 256 + x := by
  induction l with
  | nil => simp [fromBytesBE]
  | cons y ys ihy =>
    rw [List.cons_append, fromBytesBE, ihy, fromBytesBE]
    simp only [List.length_append, List.length_cons, List.length_nil]
    ring

theorem mod_mul_256 (n M : Nat) (hM : 0 < M) :
    n % (M * 256) = n / 256 % M * 256 + n % 256 := by
  have hr : n % 256 < 256 := Nat.mod_lt _ (by omega)
  have hqm : n / 256 % M < M := Nat.mod_lt _ hM
  conv_lhs => rw [← Nat.div_add_mod n 256, ← Nat.div_add_mod (n / 256) M]
  have h1 : 256 * (M * (n / 256 / M) + n / 256 % M) + n % 256
      = (n / 256 % M * 256 + n % 256) + (M * 256) * (n / 256 / M) := by ring
  rw [h1, Nat.add_mul_mod_self_left]
  have h2 : (n / 256 % M + 1) * 256 ≤ M * 256 :=
    Nat.mul_le_mul_right _ (Nat.succ_le_of_lt hqm)
  exact Nat.mod_eq_of_lt (by nlinarith)

theorem fromBytesBE_toBytesBE (w n : Nat) :
    fromBytesBE (toBytesBE w n) = n % 256 ^ w := by
  induction w generalizing n with
  | zero => simp [toBytesBE, fromBytesBE, Nat.mod_one]
  | succ w ih =>
    rw [toBytesBE, fromBytesBE_append_singleton, ih, pow_succ,
      mod_mul_256 n (256 ^ w) (Nat.pos_pow_of_pos _ (by omega))]

theorem fromBytesBE_inj (l1 l2 : List Nat) (hlen : l1.length = l2.length)
    (h1 : ∀ b ∈ l1, b < 256) (h2 : ∀ b ∈ l2, b < 256)
    (heq : fromBytesBE l1 = fromBytesBE l2) : l1 = l2 := by
  induction l1 generalizing l2 with
  | nil => cases l2 with
    | nil => rfl
    | cons _ _ => simp at hlen
  | cons b bs ih =>
    cases l2 with
    | nil => simp at hlen
    | cons c cs =>
      simp only [List.length_cons, Nat.succ.injEq] at hlen
      rw [fromBytesBE, fromBytesBE, hlen] at heq
      have hbsl : fromBytesBE bs < 256 ^ cs.length := by
        rw [← hlen]; exact fromBytesBE_lt bs (fun x hx => h1 x (by simp [hx]))
      have hcsl : fromBytesBE cs < 256 ^ cs.length :=
        fromBytesBE_lt cs (fun x hx => h2 x (by simp [hx]))
      have hb : b = c := by
        by_contra hne
        rcases Nat.lt_or_ge b c with hlt | hge
        · nlinarith
        · have : c < b := by omega
          nlinarith
      subst hb
      have : fromBytesBE bs = fromBytesBE cs := by omega
      rw [ih cs hlen (fun x hx => h1 x (by simp [hx]))
        (fun x hx => h2 x (by simp [hx])) this]

/-! ## CRC-64/ECMA-182 (the `crc` crate's `CRC_64_ECMA_182`)

Parameters: width 64, polynomial `0x42F0E1EBA9EA3693`, init 0, no
reflection, xorout 0.  The bitwise (non-table) formulation of the MSB-first
algorithm, which the table-driven implementation in the `crc` crate
computes. -/

def CRC64_POLY : Nat := 0x42F0E1EBA9EA3693

/-- One shift-register step of the MSB-first CRC: shift left one bit and
conditionally xor the polynomial, in `u64` arithmetic. -/
def crcStepBit (c : Nat) : Nat :=
  ((c <<< 1) ^^^ (if c.testBit 63 then CRC64_POLY else 0)) % 2 ^ 64

/-- Process one input byte: xor it into the top byte of the register and
run eight register steps. -/
def crcStepByte (c b : Nat) : Nat :=
  crcStepBit^[8] (c ^^^ (b <<< 56))

/-- CRC-64/ECMA-182 of a byte list (init 0, xorout 0). -/
def crc64 (bytes : List Nat) : Nat :=
  bytes.foldl crcStepByte 0

theorem crcStepBit_lt (c : Nat) : crcStepBit c < 2 ^ 64 :=
  Nat.mod_lt _ (by positivity)

theorem crcStepByte_lt (c b : Nat) : crcStepByte c b < 2 ^ 64 := by
  have h : crcStepByte c b = crcStepBit (crcStepBit^[7] (c ^^^ (b <<< 56))) :=
    Function.iterate_succ_apply' crcStepBit 7 (c ^^^ (b <<< 56))
  rw [h]
  exact crcStepBit_lt _

theorem crc64_lt (bytes : List Nat) : crc64 bytes < 2 ^ 64 := by
  induction bytes using List.reverseRecOn with
  | nil => norm_num [crc64]
  | append_singleton xs x _ =>
    rw [crc64, List.foldl_append, List.foldl_cons, List.foldl_nil]
    exact crcStepByte_lt _ _

/-! ## UTF-8 validity (std::str::from_utf8)

The standard UTF-8 well-formedness check that `std::str::from_utf8`
performs on `path_bytes` during decoding: correct continuation bytes, no
overlong forms, no surrogates, nothing above U+10FFFF. -/

/-- A UTF-8 continuation byte: `0x80 ..= 0xBF`. -/
def isUtf8Cont (b : Nat) : Bool := decide (128 ≤ b) && decide (b ≤ 191)

/-- `std::str::from_utf8` succeeds on this byte list. -/
def utf8Valid : List Nat → Bool
  | [] => true
  | b :: rest =>
    if b < 128 then utf8Valid rest
    else if b < 194 then false
    else if b < 224 then
      match rest with
      | c1 :: rest2 => isUtf8Cont c1 && utf8Valid rest2
      | [] => false
    else if b < 240 then
      match rest with
      | c1 :: c2 :: rest2 =>
        (if b = 224 then decide (160 ≤ c1) && decide (c1 ≤ 191)
         else if b = 237 then decide (128 ≤ c1) && decide (c1 ≤ 159)
         else isUtf8Cont c1) && isUtf8Cont c2 && utf8Valid rest2
      | _ => false
    else if b < 245 then
      match rest with
      | c1 :: c2 :: c3 :: rest2 =>
        (if b = 240 then decide (144 ≤ c1) && decide (c1 ≤ 191)
         else if b = 244 then decide (128 ≤ c1) && decide (c1 ≤ 143)
         else isUtf8Cont c1) && isUtf8Cont c2 && isUtf8Cont c3 && utf8Valid rest2
      | _ => false
    else false

/-! ## The change codec (crates/engine/src/change.rs)

`FileIndexMetadata`, `encode` and `decode`: the framed, CRC-64-checksummed
binary snapshot format.  `path` is the UTF-8 byte list of the Rust
`String`. -/

/-- `change.rs`: `FileIndexMetadata { path, size, modified_time }` with
`path : String` (kept as its UTF-8 bytes), `size : u64`,
`modified_time : u64`. -/
structure FileIndexMetadata where
  path : List Nat
  size : Nat
  modified_time : Nat
  deriving DecidableEq, Repr

/-- `b"BTLX"`. -/
def MAGIC : List Nat := [66, 84, 76, 88]

/-- `VERSION: u32 = 1`. -/
def VERSION : Nat := 1

/-- The single failure of `encode`: `anyhow!("Path too long: ...")`. -/
inductive EncodeError where
  | pathTooLong (len : Nat)
  deriving DecidableEq, Repr

/-- The failures of `decode`, one per `anyhow!` site in `change.rs`:
too short, bad magic, unsupported version, truncated entry/path,
invalid UTF-8 path, checksum mismatch. -/
inductive DecodeError where
  | tooShort
  | badMagic
  | unsupportedVersion (v : Nat)
  | truncated
  | invalidUtf8
  | checksumMismatch
  deriving DecidableEq, Repr

/-- The entry block written by the loop in `encode`: for each record
`size: u64 BE`, `modified: u64 BE`, `path_len: u16 BE`, then the raw path
bytes; fails with `PathTooLong` when a path exceeds `u16::MAX` bytes. -/
def encodeEntries : List FileIndexMetadata → Except EncodeError (List Nat)
  | [] => .ok []
  | r :: rs =>
    if r.path.length > 65535 then .error (.pathTooLong r.path.length)
    else
      match encodeEntries rs with
      | .error e => .error e
      | .ok tail =>
        .ok (toBytesBE 8 r.size ++ toBytesBE 8 r.modified_time ++
             toBytesBE 2 r.path.length ++ r.path ++ tail)

/-- `change.rs::encode`: magic, version, entry count (`records.len() as
u32`), the entries, then the CRC-64/ECMA checksum of every preceding
byte. -/
def encode (records : List FileIndexMetadata) : Except EncodeError (List Nat) :=
  match encodeEntries records with
  | .error e => .error e
  | .ok entries =>
    let body := MAGIC ++ toBytesBE 4 VERSION ++ toBytesBE 4 records.length ++ entries
    .ok (body ++ toBytesBE 8 (crc64 body))

/-- The entry-reading loop of `decode`: reads `numEntries` entries from the
data region (the slice between the 12-byte header and the trailing
checksum), leaving any surplus bytes unread, exactly as the Rust loop
leaves `offset` short of the region's end. -/
def parseEntries : Nat → List Nat → Except DecodeError (List FileIndexMetadata)
  | 0, _ => .ok []
  | n + 1, bs =>
    if bs.length < 18 then .error .truncated
    else
      let size := fromBytesBE (bs.take 8)
      let modified := fromBytesBE ((bs.drop 8).take 8)
      let pathLen := fromBytesBE ((bs.drop 16).take 2)
      let rest := bs.drop 18
      if rest.length < pathLen then .error .truncated
      else if utf8Valid (rest.take pathLen) then
        match parseEntries n (rest.drop pathLen) with
        | .error e => .error e
        | .ok rs => .ok (⟨rest.take pathLen, size, modified⟩ :: rs)
      else .error .invalidUtf8

/-- `change.rs::decode`: header checks, checksum verification over
`bytes[..len-8]`, then the entry loop over `bytes[12..len-8]`. -/
def decode (bytes : List Nat) : Except DecodeError (List FileIndexMetadata) :=
  if bytes.length < 20 then .error .tooShort
  else if bytes.take 4 ≠ MAGIC then .error .badMagic
  else
    let version := fromBytesBE ((bytes.drop 4).take 4)
    if version ≠ VERSION then .error (.unsupportedVersion version)
    else
      let numEntries := fromBytesBE ((bytes.drop 8).take 4)
      let dataEnd := bytes.length - 8
      let stored := fromBytesBE ((bytes.drop dataEnd).take 8)
      if stored ≠ crc64 (bytes.take dataEnd) then .error .checksumMismatch
      else parseEntries numEntries ((bytes.drop 12).take (dataEnd - 12))

/-! ## The differ (crates/engine/src/change.rs::diff_file_index_metadata)

One pass over `current` (hash-set membership on `previous` paths, then
`previous.iter().find(...)` — the FIRST match — for the modification
test), and one pass over `previous` for removals. -/

/-- `change.rs::Delta`. -/
structure Delta where
  added : List FileIndexMetadata
  modified : List FileIndexMetadata
  removed : List FileIndexMetadata
  deriving DecidableEq, Repr

/-- `change.rs::diff_file_index_metadata`.  The single loop over `current`
pushes each record into `added` or (when size or mtime differ from the
first `previous` record with the same path) into `modified`; since the two
predicates are mutually exclusive this is the pair of filters below, in
`current` order.  `removed` keeps `previous` order. -/
def diff_file_index_metadata (previous current : List FileIndexMetadata) : Delta :=
  let added := current.filter fun c => !(previous.any fun f => f.path == c.path)
  let modified := current.filter fun c =>
    (previous.any fun f => f.path == c.path) &&
      match previous.find? (fun f => f.path == c.path) with
      | some p => !(p.size == c.size) || !(p.modified_time == c.modified_time)
      | none => false
  let removed := previous.filter fun p => !(current.any fun f => f.path == p.path)
  ⟨added, modified, removed⟩

/-! ## Schema and tokenizers (crates/engine/src/schema.rs, storage.rs)

`CodeIndexSchema::new` declares `path` and `extension` as `STRING | STORED`
(tantivy's `STRING` = the `raw` tokenizer: the whole value as one
untokenized term) and `content` with tokenizer name `"ngram3"`.
`FsStorage::{create, open}` register `"ngram3"` as
`NgramTokenizer::new(3, 3, false)`.  tantivy's ngram tokenizer emits, for
each character position, every gram of the configured sizes, without any
lowercasing. -/

/-- A tantivy tokenizer as registered in this engine. -/
inductive TokenizerImpl where
  | raw
  | ngram (minGram maxGram : Nat) (prefixOnly : Bool)
  deriving DecidableEq, Repr

/-- All character n-grams of sizes `minGram..=maxGram` starting at position
`i` (only `i = 0` when `prefixOnly`), in position-major order — tantivy's
`NgramTokenizer`. -/
def ngramTokens (minGram maxGram : Nat) (prefixOnly : Bool)
    (text : List Char) : List (List Char) :=
  (if prefixOnly then [0] else List.range text.length).flatMap fun i =>
    ((List.range (maxGram + 1 - minGram)).map (· + minGram)).filterMap fun g =>
      if i + g ≤ text.length then some ((text.drop i).take g) else none

/-- Run a registered tokenizer on a text. -/
def runTokenizer : TokenizerImpl → List Char → List (List Char)
  | .raw, text => [text]
  | .ngram mn mx p, text => ngramTokens mn mx p text

/-- `FsStorage::create` / `FsStorage::open`: the tokenizer registry after
`index.tokenizers().register("ngram3", NgramTokenizer::new(3, 3, false))`;
`raw` is tantivy's built-in. -/
def registeredTokenizers (name : String) : Option TokenizerImpl :=
  if name = "ngram3" then some (.ngram 3 3 false)
  else if name = "raw" then some .raw
  else none

/-- Field configuration from `CodeIndexSchema::new`. -/
structure FieldConfig where
  fieldName : String
  tokenizerName : String
  stored : Bool
  deriving DecidableEq, Repr

/-- `schema.rs`: `path` is `STRING | STORED` (tokenizer `raw`). -/
def pathFieldConfig : FieldConfig := ⟨"path", "raw", true⟩

/-- `schema.rs`: `content` is text with `set_tokenizer("ngram3")`, stored. -/
def contentFieldConfig : FieldConfig := ⟨"content", "ngram3", true⟩

/-- Tokenize a text the way the index analyzes the given field: look the
field's tokenizer name up in the registry and run it. -/
def fieldTokens (cfg : FieldConfig) (text : String) : Option (List String) :=
  (registeredTokenizers cfg.tokenizerName).map fun t =>
    (runTokenizer t text.data).map List.asString

/-! ## Storage: the snapshot file (crates/engine/src/storage.rs)

`FsStorage::read_file_index_metadata` / `save_file_index_metadata` for one
index.  The filesystem read and the serde-JSON parse are external; their
observable outcomes at this call site are: the file is absent, the file is
present but unreadable or unparseable, or it parses to a record list. -/

/-- The on-disk snapshot file of one index, as `read_file_index_metadata`
can observe it. -/
inductive SnapshotFile where
  | absent
  | corrupt
  | valid (records : List FileIndexMetadata)
  deriving DecidableEq, Repr

/-- `storage.rs::read_file_index_metadata`: `Ok(vec![])` when the file does
not exist; an `Err` when reading or JSON-parsing fails; the parsed records
otherwise. -/
def read_file_index_metadata : SnapshotFile → Except String (List FileIndexMetadata)
  | .absent => .ok []
  | .corrupt => .error "Failed to parse file index metadata JSON"
  | .valid rs => .ok rs

/-! ## Storage: index lifecycle (crates/engine/src/storage.rs::create)

`FsStorage::create` for one index name.  The on-disk artifacts under
`<root>/<name>` are tracked as booleans; `target_path.exists()` is the
parameter `targetExists`.  The create-order of the Rust code is kept:
existence check, `create_dir_all` of the index root, target check,
`meta.json` write, `index/` creation. -/

/-- The on-disk artifacts of one index under `<root>/<name>`. -/
structure IndexDirState where
  rootDir : Bool
  metaJson : Bool
  indexDir : Bool
  snapshotFile : Bool
  deriving DecidableEq, Repr

/-- The two errors `create` checks for explicitly. -/
inductive CreateError where
  | alreadyExists
  | targetMissing
  deriving DecidableEq, Repr

/-- `storage.rs::create`: returns the call's outcome together with the
on-disk state it leaves behind. -/
def FsStorage.create (st : IndexDirState) (targetExists : Bool) :
    Except CreateError Unit × IndexDirState :=
  if st.rootDir then (.error .alreadyExists, st)
  else
    let st1 := { st with rootDir := true }
    if !targetExists then (.error .targetMissing, st1)
    else
      let st2 := { st1 with metaJson := true }
      let st3 := { st2 with indexDir := true }
      (.ok (), st3)

/-! ## The incremental writer (crates/engine/src/writter.rs)

`IndexWriter::index`.  File reads and mtime lookups during document
construction (`schema.rs::CodeIndexDocument::from_path`) are external and
appear as the functions `readContent` (`None` = `read_to_string` failed)
and `readMtime` (`None` = metadata/mtime failed, falling back to `now`).
The tantivy writer is a staged operation log: `delete_term` on the raw
`path` term and `add_document`, applied in order at `commit`; `commit`'s
success is external and appears as `commitOk`. -/

/-- One document of the inverted index, as built by
`CodeIndexDocument::from_path` + `to_tantivy_document`.  Strings are byte
lists; `last_modified` is seconds since epoch. -/
structure IndexedDoc where
  path : List Nat
  content : List Nat
  extension : List Nat
  last_modified : Nat
  deriving DecidableEq, Repr

/-- `std::path::Path::extension` of a path given as bytes (`47 = '/'`,
`46 = '.'`), then `unwrap_or_default`: the bytes after the last dot of the
final component, empty when there is no dot or the only dot starts the
component. -/
def extensionOf (p : List Nat) : List Nat :=
  let fileName := (p.reverse.takeWhile fun b => b ≠ 47).reverse
  let rev := fileName.reverse
  if rev.contains 46 then
    let j := rev.findIdx fun b => b == 46
    if j + 1 = fileName.length then [] else (rev.take j).reverse
  else []

/-- `schema.rs::CodeIndexDocument::from_path`: content from
`read_to_string(path).unwrap_or_default()`, extension from the path,
`last_modified` from the file metadata with `SystemTime::now()` as
fallback. -/
def CodeIndexDocument.from_path (readContent : List Nat → Option (List Nat))
    (readMtime : List Nat → Option Nat) (now : Nat) (p : List Nat) : IndexedDoc :=
  { path := p
    content := (readContent p).getD []
    extension := extensionOf p
    last_modified := (readMtime p).getD now }

/-- A staged tantivy writer operation. -/
inductive IndexOp where
  | delTerm (path : List Nat)
  | addDoc (doc : IndexedDoc)
  deriving DecidableEq, Repr

/-- Effect of one staged operation on the committed document store:
`delete_term` on the raw `path` term removes every document whose `path`
equals it; `add_document` appends. -/
def applyOp (docs : List IndexedDoc) : IndexOp → List IndexedDoc
  | .delTerm p => docs.filter fun d => !(d.path == p)
  | .addDoc d => docs ++ [d]

/-- `commit()`: apply the staged operations in order. -/
def applyOps (docs : List IndexedDoc) (ops : List IndexOp) : List IndexedDoc :=
  ops.foldl applyOp docs

/-- The state an `IndexWriter::index` run reads and writes: the committed
documents of the inverted index and the snapshot file. -/
structure IndexState where
  docs : List IndexedDoc
  snapshot : SnapshotFile
  deriving DecidableEq, Repr

/-- `writter.rs::IndexWriter::index`: load the snapshot (propagating its
error), scan (`scanned` is the scan's result), diff, stage `delete_term`
for every removed path, stage `add_document` for every added-or-modified
record (batching by 100 preserves this order), commit, and only then save
the new snapshot.  Returns the new state on success. -/
def IndexWriter.index (commitOk : Bool) (scanned : List FileIndexMetadata)
    (readContent : List Nat → Option (List Nat)) (readMtime : List Nat → Option Nat)
    (now : Nat) (st : IndexState) : Except String IndexState :=
  match read_file_index_metadata st.snapshot with
  | .error e => .error e
  | .ok prev =>
    let delta := diff_file_index_metadata prev scanned
    let delOps := delta.removed.map fun r => IndexOp.delTerm r.path
    let filesToUpdate := delta.added ++ delta.modified
    let addOps := filesToUpdate.map fun r =>
      IndexOp.addDoc (CodeIndexDocument.from_path readContent readMtime now r.path)
    if commitOk then
      .ok { docs := applyOps st.docs (delOps ++ addOps), snapshot := .valid scanned }
    else .error "Failed to commit index writer"

/-- The on-disk state after an `index()` call: unchanged when the call
errors (staged tantivy operations are discarded with the writer and the
snapshot file was not rewritten). -/
def IndexWriter.indexState (commitOk : Bool) (scanned : List FileIndexMetadata)
    (readContent : List Nat → Option (List Nat)) (readMtime : List Nat → Option Nat)
    (now : Nat) (st : IndexState) : IndexState :=
  match IndexWriter.index commitOk scanned readContent readMtime now st with
  | .ok st2 => st2
  | .error _ => st

/-! ## Spec-side differ definitions (for comparison with the code)

The three sets exactly as §4.5 of the specification words them; used to
compare the spec's definition of the delta against
`diff_file_index_metadata`. -/

/-- Spec §4.5: `added = { c ∈ current | c.path ∉ paths(previous) }`. -/
def specAdded (previous current : List FileIndexMetadata) : List FileIndexMetadata :=
  current.filter fun c => decide (∀ p ∈ previous, p.path ≠ c.path)

/-- Spec §4.5: `removed = { p ∈ previous | p.path ∉ paths(current) }`. -/
def specRemoved (previous current : List FileIndexMetadata) : List FileIndexMetadata :=
  previous.filter fun p => decide (∀ c ∈ current, c.path ≠ p.path)

/-- Spec §4.5: `modified = { c ∈ current | ∃ p ∈ previous, p.path = c.path
∧ (p.size ≠ c.size ∨ p.modified_time ≠ c.modified_time) }`. -/
def specModified (previous current : List FileIndexMetadata) : List FileIndexMetadata :=
  current.filter fun c =>
    decide (∃ p ∈ previous, p.path = c.path ∧
      (p.size ≠ c.size ∨ p.modified_time ≠ c.modified_time))

/-- The modification set the code computes: the comparison record is the
FIRST record of `previous` with the matching path, not an arbitrary one. -/
def firstMatchModified (previous current : List FileIndexMetadata) : List FileIndexMetadata :=
  current.filter fun c =>
    match previous.find? (fun f => f.path == c.path) with
    | some p => !(p.size == c.size) || !(p.modified_time == c.modified_time)
    | none => false

/-! ## Claim C4 — the tokenizer bound to `path` and `content` -/

/-- C4 counterexample: the claim says the tokenizer applied to the `path`
and `content` fields lowercases and splits camelCase, so that
`HTTPServer` tokenizes to exactly `http`, `server`.  In the code, `path`
is `STRING` (raw, untokenized) and `content` uses the registered
`"ngram3"` 3-gram tokenizer without lowercasing; neither yields
`[http, server]`. -/
theorem c4_not_code_tokenizer :
    fieldTokens contentFieldConfig "HTTPServer" ≠ some ["http", "server"] ∧
    fieldTokens pathFieldConfig "HTTPServer" ≠ some ["http", "server"] := by
  decide

/-- C4 amended: the `path` field is indexed raw (the whole string is the
single term) and the `content` field is tokenized by
`NgramTokenizer::new(3, 3, false)`: all character 3-grams, no
lowercasing.  `HTTPServer` and `my_var_42` produce their 3-gram lists, and
the whole path stays one term. -/
theorem c4_ngram_and_raw_tokens :
    fieldTokens contentFieldConfig "HTTPServer" =
      some ["HTT", "TTP", "TPS", "PSe", "Ser", "erv", "rve", "ver"] ∧
    fieldTokens contentFieldConfig "my_var_42" =
      some ["my_", "y_v", "_va", "var", "ar_", "r_4", "_42"] ∧
    fieldTokens pathFieldConfig "HTTPServer" = some ["HTTPServer"] := by
  decide

/-! ## Claim C7 — the differ's three sets -/

/-- C7 counterexample: with a duplicated path in `previous`, the spec's
`∃ p ∈ previous` definition of `modified` disagrees with the code, which
compares against the first matching record only: for
`previous = [{p,1,1},{p,2,2}]`, `current = [{p,1,1}]` the code reports no
modification while the spec's set contains the record. -/
theorem c7_modified_not_existential :
    (diff_file_index_metadata [⟨[112], 1, 1⟩, ⟨[112], 2, 2⟩] [⟨[112], 1, 1⟩]).modified ≠
      specModified [⟨[112], 1, 1⟩, ⟨[112], 2, 2⟩] [⟨[112], 1, 1⟩] := by
  decide

/-- C7 amended: `added` and `removed` are exactly as the claim states;
`modified` consists of the records `c` of `current` for which the FIRST
record `p` of `previous` with `p.path = c.path` differs in size or
mtime. -/
theorem c7_diff_characterization (previous current : List FileIndexMetadata) :
    (diff_file_index_metadata previous current).added = specAdded previous current ∧
    (diff_file_index_metadata previous current).removed = specRemoved previous current ∧
    (diff_file_index_metadata previous current).modified =
      firstMatchModified previous current := by
  refine ⟨?_, ?_, ?_⟩
  · apply List.filter_congr
    intro c _
    cases hA : previous.any fun f => f.path == c.path
    · simp only [List.any_eq_false, beq_iff_eq] at hA
      simpa using hA
    · simp only [List.any_eq_true, beq_iff_eq] at hA
      obtain ⟨p, hp, hpath⟩ := hA
      simp only [Bool.not_true, eq_comm]
      symm
      simp only [decide_eq_false_iff_not]
      push_neg
      exact ⟨p, hp, hpath⟩
  · apply List.filter_congr
    intro p _
    cases hA : current.any fun f => f.path == p.path
    · simp only [List.any_eq_false, beq_iff_eq] at hA
      simpa using hA
    · simp only [List.any_eq_true, beq_iff_eq] at hA
      obtain ⟨c, hc, hpath⟩ := hA
      simp only [Bool.not_true]
      symm
      simp only [decide_eq_false_iff_not]
      push_neg
      exact ⟨c, hc, hpath⟩
  · apply List.filter_congr
    intro c _
    cases hF : previous.find? fun f => f.path == c.path with
    | none =>
      have : (previous.any fun f => f.path == c.path) = false := by
        simp only [List.find?_eq_none] at hF
        simp only [List.any_eq_false]
        exact fun x hx => by simpa using hF x hx
      simp [this, firstMatchModified]
    | some p =>
      have : (previous.any fun f => f.path == c.path) = true := by
        have hs : (previous.find? fun f => f.path == c.path).isSome := by
          rw [hF]; rfl
        rw [List.find?_isSome] at hs
        simpa [List.any_eq_true] using hs
      simp [this]

/-! ## Claim C8 — diff of a list against itself -/

/-- C8 counterexample: with duplicate paths inside the list, `diff(x, x)`
is NOT empty: the second occurrence is compared against the first one and
reported as modified. -/
theorem c8_self_diff_with_duplicates :
    ¬((diff_file_index_metadata [⟨[112], 1, 1⟩, ⟨[112], 2, 2⟩]
          [⟨[112], 1, 1⟩, ⟨[112], 2, 2⟩]).added = [] ∧
      (diff_file_index_metadata [⟨[112], 1, 1⟩, ⟨[112], 2, 2⟩]
          [⟨[112], 1, 1⟩, ⟨[112], 2, 2⟩]).modified = [] ∧
      (diff_file_index_metadata [⟨[112], 1, 1⟩, ⟨[112], 2, 2⟩]
          [⟨[112], 1, 1⟩, ⟨[112], 2, 2⟩]).removed = []) := by
  decide

theorem find?_path_self_of_nodup (x : List FileIndexMetadata)
    (hnodup : (x.map fun r => r.path).Nodup) (c : FileIndexMetadata) (hc : c ∈ x) :
    x.find? (fun f => f.path == c.path) = some c := by
  induction x with
  | nil => cases hc
  | cons a t ih =>
    simp only [List.map_cons, List.nodup_cons] at hnodup
    rcases List.mem_cons.mp hc with rfl | hct
    · simp
    · have hne : (a.path == c.path) = false := by
        simp only [beq_eq_false_iff_ne, ne_eq]
        intro heq
        exact hnodup.1 (heq ▸ List.mem_map_of_mem (fun r => r.path) hct)
      rw [List.find?_cons_of_neg _ (by simp [hne]), ih hnodup.2 hct]

/-- C8 amended: for every snapshot list whose paths are pairwise distinct
(the differ's intended input), diffing the list against itself yields
empty added, modified and removed lists; duplicate paths break only the
`modified` component (see the counterexample) and never panic. -/
theorem c8_self_diff_empty (x : List FileIndexMetadata)
    (hnodup : (x.map fun r => r.path).Nodup) :
    diff_file_index_metadata x x = ⟨[], [], []⟩ := by
  have hany : ∀ c ∈ x, (x.any fun f => f.path == c.path) = true := fun c hc => by
    simp only [List.any_eq_true]
    exact ⟨c, hc, by simp⟩
  simp only [diff_file_index_metadata, Delta.mk.injEq]
  refine ⟨?_, ?_, ?_⟩
  · rw [List.filter_eq_nil_iff]
    intro c hc
    simp [hany c hc]
  · rw [List.filter_eq_nil_iff]
    intro c hc
    rw [find?_path_self_of_nodup x hnodup c hc]
    simp [hany c hc]
  · rw [List.filter_eq_nil_iff]
    intro c hc
    simp [hany c hc]

/-! ## Writer helper lemmas -/

theorem applyOps_append (docs : List IndexedDoc) (ops1 ops2 : List IndexOp) :
    applyOps docs (ops1 ++ ops2) = applyOps (applyOps docs ops1) ops2 := by
  simp [applyOps, List.foldl_append]

theorem applyOps_addDocs (docs : List IndexedDoc) (f : FileIndexMetadata → IndexedDoc)
    (rs : List FileIndexMetadata) :
    applyOps docs (rs.map fun r => IndexOp.addDoc (f r)) = docs ++ rs.map f := by
  induction rs generalizing docs with
  | nil => simp [applyOps]
  | cons r t ih =>
    simp only [List.map_cons, applyOps, List.foldl_cons, applyOp] at *
    rw [ih (docs ++ [f r])]
    simp

theorem diff_nil_previous (scanned : List FileIndexMetadata) :
    diff_file_index_metadata [] scanned = ⟨scanned, [], []⟩ := by
  simp [diff_file_index_metadata, List.filter_eq_self]

/-! ## Claim C1 — one document per added/modified path after commit -/

/-- C1 (code bug): the writer stages `delete_term` only for the paths of
`Δ.removed`, never for modified ones, and then adds a fresh document for
every added-or-modified record; a modified file therefore ends the commit
with TWO documents carrying its path instead of one.  The index held one
committed document for path `[97]`, the snapshot recorded it at size 100,
the rescan sees size 150, and after the run the committed store contains
two documents with `path = [97]`. -/
theorem c1_modified_path_duplicated :
    ((IndexWriter.indexState true [⟨[97], 150, 20⟩]
        (fun _ => some [120]) (fun _ => some 20) 0
        ⟨[CodeIndexDocument.from_path (fun _ => some [121]) (fun _ => some 10) 0 [97]],
          .valid [⟨[97], 100, 10⟩]⟩).docs.countP fun d => d.path == [97]) = 2 := by
  decide

/-! ## Claim C3 — behaviour on a corrupted snapshot -/

/-- C3 counterexample: with a corrupted (present but unparseable) snapshot
file, `IndexWriter::index` does NOT re-index from an empty snapshot; it
propagates the parse error and the whole run fails. -/
theorem c3_corrupt_snapshot_fails :
    IndexWriter.index true [] (fun _ => none) (fun _ => none) 0 ⟨[], .corrupt⟩ =
      .error "Failed to parse file index metadata JSON" := by
  decide

/-- C3 amended: only an ABSENT snapshot file is treated as the empty list,
in which case the run indexes every scanned file and completes; a snapshot
file that fails to parse makes `index()` fail with the read error. -/
theorem c3_absent_empty_corrupt_fatal (scanned : List FileIndexMetadata)
    (rc : List Nat → Option (List Nat)) (mt : List Nat → Option Nat) (now : Nat)
    (docs : List IndexedDoc) (st : IndexState) (hc : st.snapshot = .corrupt) :
    IndexWriter.index true scanned rc mt now ⟨docs, .absent⟩ =
      .ok ⟨docs ++ scanned.map fun r => CodeIndexDocument.from_path rc mt now r.path,
        .valid scanned⟩ ∧
    IndexWriter.index true scanned rc mt now st =
      .error "Failed to parse file index metadata JSON" := by
  constructor
  · simp only [IndexWriter.index, read_file_index_metadata, diff_nil_previous,
      List.map_nil, List.nil_append, List.append_nil, if_true]
    rw [applyOps_addDocs]
  · simp [IndexWriter.index, hc, read_file_index_metadata]

/-! ## Claim C5 — unreadable files during indexing -/

/-- C5 counterexample: a record whose content read fails is NOT skipped:
the run succeeds and a document for its path — with empty content — is
added to the index. -/
theorem c5_unreadable_file_still_indexed :
    IndexWriter.index true [⟨[97], 1, 2⟩] (fun _ => none) (fun _ => none) 0
        ⟨[], .valid []⟩ =
      .ok ⟨[⟨[97], [], [], 0⟩], .valid [⟨[97], 1, 2⟩]⟩ := by
  decide

/-- C5 amended: a failed content read is never fatal — the run can still
succeed — but the file is not skipped: `read_to_string(...)
.unwrap_or_default()` falls back to the empty string and a document with
empty content is added for the path. -/
theorem c5_read_failure_nonfatal (prev scanned : List FileIndexMetadata)
    (rc : List Nat → Option (List Nat)) (mt : List Nat → Option Nat) (now : Nat)
    (docs : List IndexedDoc) (r : FileIndexMetadata)
    (hr : r ∈ (diff_file_index_metadata prev scanned).added ++
      (diff_file_index_metadata prev scanned).modified)
    (hfail : rc r.path = none) :
    ∃ st2, IndexWriter.index true scanned rc mt now ⟨docs, .valid prev⟩ = .ok st2 ∧
      (⟨r.path, [], extensionOf r.path, (mt r.path).getD now⟩ : IndexedDoc) ∈ st2.docs := by
  refine ⟨_, rfl, ?_⟩
  simp only [applyOps_append]
  rw [applyOps_addDocs]
  apply List.mem_append_right
  have : CodeIndexDocument.from_path rc mt now r.path =
      ⟨r.path, [], extensionOf r.path, (mt r.path).getD now⟩ := by
    simp [CodeIndexDocument.from_path, hfail]
  rw [← this]
  exact List.mem_map_of_mem _ hr

/-! ## Claim C6 — commit failure leaves the snapshot untouched -/

/-- C6: when commit fails the whole `index()` call returns an error and
the on-disk state — in particular the snapshot file — is unchanged; a new
snapshot (always the scanned list) is persisted only by a successful run,
which requires the commit to succeed. -/
theorem c6_commit_failure_atomic (scanned : List FileIndexMetadata)
    (rc : List Nat → Option (List Nat)) (mt : List Nat → Option Nat) (now : Nat)
    (st : IndexState) :
    (∃ e, IndexWriter.index false scanned rc mt now st = .error e) ∧
    IndexWriter.indexState false scanned rc mt now st = st ∧
    (∀ ck st2, IndexWriter.index ck scanned rc mt now st = .ok st2 →
      ck = true ∧ st2.snapshot = .valid scanned) := by
  refine ⟨?_, ?_, ?_⟩
  · cases hs : st.snapshot <;>
      simp [IndexWriter.index, read_file_index_metadata, hs]
  · cases hs : st.snapshot <;>
      simp [IndexWriter.indexState, IndexWriter.index, read_file_index_metadata, hs]
  · intro ck st2 h
    cases ck
    · exfalso
      cases hs : st.snapshot <;>
        simp [IndexWriter.index, read_file_index_metadata, hs] at h
    · refine ⟨rfl, ?_⟩
      cases hs : st.snapshot
      case corrupt =>
        simp [IndexWriter.index, read_file_index_metadata, hs] at h
      case absent =>
        simp only [IndexWriter.index, read_file_index_metadata, hs, if_true,
          Except.ok.injEq] at h
        rw [← h]
      case valid prev =>
        simp only [IndexWriter.index, read_file_index_metadata, hs, if_true,
          Except.ok.injEq] at h
        rw [← h]

/-! ## Claim C10 — atomicity of storage create -/

/-- C10 counterexample: `create` on a fresh name with a missing target
directory returns an error but leaves partial on-disk state behind: the
`<root>/<name>` directory was already created (without `meta.json`)
because the target check runs after `create_dir_all`. -/
theorem c10_create_error_partial_state :
    (FsStorage.create ⟨false, false, false, false⟩ false).1 =
      .error .targetMissing ∧
    (FsStorage.create ⟨false, false, false, false⟩ false).2 ≠
      ⟨false, false, false, false⟩ := by
  decide

/-- C10 amended: on success, `meta.json` and the `index/` directory exist
under the created `<root>/<name>` (the snapshot file is not created until
the first successful commit); on a missing target, `create` errors but the
bare `<root>/<name>` directory remains behind, without `meta.json`. -/
theorem c10_create_outcomes (st : IndexDirState) (target : Bool)
    (h : st.rootDir = false) :
    (target = true → FsStorage.create st target =
      (.ok (), ⟨true, true, true, st.snapshotFile⟩)) ∧
    (target = false → FsStorage.create st target =
      (.error .targetMissing, { st with rootDir := true })) := by
  cases target <;> simp [FsStorage.create, h]

/-! ## Codec structure lemmas (towards claims C2 and C9) -/

/-- The well-formedness of a record list that the Rust types guarantee at
the call sites of `encode`: `u64` fields, paths that are UTF-8 byte
strings of at most `u16::MAX` bytes. -/
def WFRecords (rs : List FileIndexMetadata) : Prop :=
  ∀ r ∈ rs, r.path.length ≤ 65535 ∧ r.size < 2 ^ 64 ∧ r.modified_time < 2 ^ 64 ∧
    utf8Valid r.path = true ∧ ∀ b ∈ r.path, b < 256

instance (rs : List FileIndexMetadata) : Decidable (WFRecords rs) := by
  unfold WFRecords
  infer_instance

theorem encodeEntries_ok (rs : List FileIndexMetadata)
    (h : ∀ r ∈ rs, r.path.length ≤ 65535) : ∃ eb, encodeEntries rs = .ok eb := by
  induction rs with
  | nil => exact ⟨[], rfl⟩
  | cons r t ih =>
    obtain ⟨tail, htail⟩ := ih fun x hx => h x (by simp [hx])
    have hr : ¬ r.path.length > 65535 := by
      have := h r (by simp)
      omega
    refine ⟨toBytesBE 8 r.size ++ toBytesBE 8 r.modified_time ++
      toBytesBE 2 r.path.length ++ r.path ++ tail, ?_⟩
    simp [encodeEntries, hr, htail]

theorem encode_of_entries (rs : List FileIndexMetadata) (eb : List Nat)
    (h : encodeEntries rs = .ok eb) :
    encode rs = .ok ((MAGIC ++ toBytesBE 4 VERSION ++ toBytesBE 4 rs.length ++ eb) ++
      toBytesBE 8 (crc64 (MAGIC ++ toBytesBE 4 VERSION ++ toBytesBE 4 rs.length ++ eb))) := by
  simp [encode, h]

theorem decode_encode_core (rs : List FileIndexMetadata) (eb bs : List Nat)
    (h : encodeEntries rs = .ok eb) (hbs : encode rs = .ok bs) :
    decode bs = parseEntries (rs.length % 2 ^ 32) eb := by
  have hbs2 : bs = (MAGIC ++ toBytesBE 4 VERSION ++ toBytesBE 4 rs.length ++ eb) ++
      toBytesBE 8 (crc64 (MAGIC ++ toBytesBE 4 VERSION ++ toBytesBE 4 rs.length ++ eb)) := by
    rw [encode_of_entries rs eb h] at hbs
    exact (Except.ok.inj hbs).symm
  set body := MAGIC ++ toBytesBE 4 VERSION ++ toBytesBE 4 rs.length ++ eb with hbody
  set cks := toBytesBE 8 (crc64 body) with hcks
  have hbodyl : body.length = 12 + eb.length := by
    simp [hbody, MAGIC]
    omega
  have hbsl : bs.length = body.length + 8 := by
    rw [hbs2]
    simp [hcks]
  have hlen20 : ¬ bs.length < 20 := by omega
  have hassoc : bs = MAGIC ++ (toBytesBE 4 VERSION ++ (toBytesBE 4 rs.length ++
      (eb ++ cks))) := by
    rw [hbs2, hbody]
    simp [List.append_assoc]
  have htake4 : bs.take 4 = MAGIC := by
    rw [hassoc]
    exact List.take_left' rfl
  have hdrop4 : bs.drop 4 = toBytesBE 4 VERSION ++ (toBytesBE 4 rs.length ++ (eb ++ cks)) := by
    rw [hassoc]
    exact List.drop_left' rfl
  have hver : fromBytesBE ((bs.drop 4).take 4) = VERSION := by
    rw [hdrop4, List.take_left' (toBytesBE_length 4 _), fromBytesBE_toBytesBE]
    norm_num [VERSION]
  have hdrop8 : bs.drop 8 = toBytesBE 4 rs.length ++ (eb ++ cks) := by
    have h8 : bs.drop 8 = (bs.drop 4).drop 4 := (List.drop_drop 4 4 bs).symm
    rw [h8, hdrop4, List.drop_left' (toBytesBE_length 4 _)]
  have hnum : fromBytesBE ((bs.drop 8).take 4) = rs.length % 2 ^ 32 := by
    rw [hdrop8, List.take_left' (toBytesBE_length 4 _), fromBytesBE_toBytesBE]
    norm_num
  have hdrop12 : bs.drop 12 = eb ++ cks := by
    have h12 : bs.drop 12 = (bs.drop 8).drop 4 := (List.drop_drop 4 8 bs).symm
    rw [h12, hdrop8, List.drop_left' (toBytesBE_length 4 _)]
  have htakeData : bs.take (bs.length - 8) = body := by
    have : bs.length - 8 = body.length := by omega
    rw [this, hbs2]
    exact List.take_left _ _
  have hdropData : bs.drop (bs.length - 8) = cks := by
    have : bs.length - 8 = body.length := by omega
    rw [this, hbs2]
    exact List.drop_left _ _
  have hstored : fromBytesBE ((bs.drop (bs.length - 8)).take 8) =
      crc64 (bs.take (bs.length - 8)) := by
    rw [htakeData, hdropData, hcks,
      List.take_of_length_le (le_of_eq (toBytesBE_length 8 _)), fromBytesBE_toBytesBE]
    have h2 : (256 : Nat) ^ 8 = 2 ^ 64 := by norm_num
    rw [h2]
    exact Nat.mod_eq_of_lt (crc64_lt body)
  have hebslice : (bs.drop 12).take (bs.length - 8 - 12) = eb := by
    rw [hdrop12]
    have : bs.length - 8 - 12 = eb.length := by omega
    rw [this]
    exact List.take_left _ _
  simp only [decode]
  rw [if_neg hlen20, if_neg (by simp [htake4]), if_neg (by simp [hver]),
    if_neg (by simp [hstored]), hnum, hebslice]

theorem parseEntries_encodeEntries (rs : List FileIndexMetadata)
    (hwf : WFRecords rs) (eb : List Nat) (h : encodeEntries rs = .ok eb) :
    parseEntries rs.length eb = .ok rs := by
  induction rs generalizing eb with
  | nil =>
    have : eb = [] := by
      simpa [encodeEntries] using h.symm
    simp [this, parseEntries]
  | cons r t ih =>
    obtain ⟨hp, hsz, hmt, hu, _⟩ := hwf r (by simp)
    have hnot : ¬ r.path.length > 65535 := by omega
    rw [encodeEntries, if_neg hnot] at h
    cases htail : encodeEntries t with
    | error e => rw [htail] at h; cases h
    | ok tail =>
      rw [htail] at h
      have heb : eb = toBytesBE 8 r.size ++ (toBytesBE 8 r.modified_time ++
          (toBytesBE 2 r.path.length ++ (r.path ++ tail))) := by
        rw [(Except.ok.inj h).symm]
        simp [List.append_assoc]
    -- lengths of the pieces
      have hebl : eb.length = 18 + (r.path.length + tail.length) := by
        rw [heb]
        simp
        omega
      have hlen18 : ¬ eb.length < 18 := by omega
      have hdrop8 : eb.drop 8 = toBytesBE 8 r.modified_time ++
          (toBytesBE 2 r.path.length ++ (r.path ++ tail)) := by
        rw [heb]
        exact List.drop_left' (toBytesBE_length 8 _)
      have hdrop16 : eb.drop 16 = toBytesBE 2 r.path.length ++ (r.path ++ tail) := by
        have h16 : eb.drop 16 = (eb.drop 8).drop 8 := (List.drop_drop 8 8 eb).symm
        rw [h16, hdrop8, List.drop_left' (toBytesBE_length 8 _)]
      have hdrop18 : eb.drop 18 = r.path ++ tail := by
        have h18 : eb.drop 18 = (eb.drop 16).drop 2 := (List.drop_drop 2 16 eb).symm
        rw [h18, hdrop16, List.drop_left' (toBytesBE_length 2 _)]
      have hsize : fromBytesBE (eb.take 8) = r.size := by
        rw [heb, List.take_left' (toBytesBE_length 8 _), fromBytesBE_toBytesBE]
        have h2 : (256 : Nat) ^ 8 = 2 ^ 64 := by norm_num
        rw [h2]
        exact Nat.mod_eq_of_lt hsz
      have hmod : fromBytesBE ((eb.drop 8).take 8) = r.modified_time := by
        rw [hdrop8, List.take_left' (toBytesBE_length 8 _), fromBytesBE_toBytesBE]
        have h2 : (256 : Nat) ^ 8 = 2 ^ 64 := by norm_num
        rw [h2]
        exact Nat.mod_eq_of_lt hmt
      have hplen : fromBytesBE ((eb.drop 16).take 2) = r.path.length := by
        rw [hdrop16, List.take_left' (toBytesBE_length 2 _), fromBytesBE_toBytesBE]
        exact Nat.mod_eq_of_lt (by norm_num; omega)
      have hrest : ¬ (eb.drop 18).length < r.path.length := by
        rw [hdrop18]
        simp only [List.length_append]
        omega
      have htakep : (eb.drop 18).take r.path.length = r.path := by
        rw [hdrop18]
        exact List.take_left _ _
      have hdropp : (eb.drop 18).drop r.path.length = tail := by
        rw [hdrop18]
        exact List.drop_left _ _
      rw [List.length_cons, parseEntries, if_neg hlen18, hplen, if_neg hrest, htakep,
        if_pos hu, hdropp, ih (fun x hx => hwf x (by simp [hx])) tail htail, hsize, hmod]

/-! ## Claim C2 — codec round trip -/

/-- The list that defeats the unrestricted round-trip claim: `2^32`
identical records. -/
def c2BigList : List FileIndexMetadata := List.replicate (2 ^ 32) ⟨[], 0, 0⟩

/-- C2 counterexample: `encode` writes the entry count as
`records.len() as u32`; for a list of `2^32` records the count wraps to 0
and the (otherwise well-formed) blob decodes to the empty list, not to the
input.  All paths are (vacuously) at most 65535 bytes. -/
theorem c2_roundtrip_fails_at_u32 :
    (∃ bs, encode c2BigList = .ok bs ∧ decode bs = .ok []) ∧
    ([] : List FileIndexMetadata) ≠ c2BigList := by
  constructor
  · obtain ⟨eb, heb⟩ := encodeEntries_ok c2BigList (by
      intro r hr
      rw [c2BigList, List.mem_replicate] at hr
      rw [hr.2]
      simp)
    refine ⟨_, encode_of_entries _ _ heb, ?_⟩
    rw [decode_encode_core _ eb _ heb (encode_of_entries _ _ heb)]
    have hzero : c2BigList.length % 2 ^ 32 = 0 := by
      rw [c2BigList, List.length_replicate, Nat.mod_self]
    rw [hzero]
    rfl
  · intro hcontra
    have := congrArg List.length hcontra
    rw [c2BigList, List.length_replicate] at this
    simp at this

/-- C2 amended: `decode (encode xs) = xs` for every record list with
paths of at most 65535 UTF-8 bytes AND fewer than `2^32` records (the
entry count is written as a `u32`); the `u64`-field and UTF-8-path bounds
are the Rust types' invariants, spelled out. -/
theorem c2_roundtrip (xs : List FileIndexMetadata) (hwf : WFRecords xs)
    (hlen : xs.length < 2 ^ 32) :
    ∃ bs, encode xs = .ok bs ∧ decode bs = .ok xs := by
  obtain ⟨eb, heb⟩ := encodeEntries_ok xs fun r hr => (hwf r hr).1
  refine ⟨_, encode_of_entries _ _ heb, ?_⟩
  rw [decode_encode_core _ eb _ heb (encode_of_entries _ _ heb),
    Nat.mod_eq_of_lt hlen]
  exact parseEntries_encodeEntries xs hwf eb heb

/-- C2 witness: a concrete single-record list round-trips. -/
theorem c2_roundtrip_witness :
    ∃ bs, encode [⟨[97], 1, 2⟩] = .ok bs ∧ decode bs = .ok [⟨[97], 1, 2⟩] :=
  c2_roundtrip [⟨[97], 1, 2⟩] (by decide) (by norm_num)

/-! ## CRC-64 sensitivity to a single-byte change (towards claim C9)

The shift-register step is injective on 64-bit states, so two inputs of
equal length that differ in exactly one byte below 256 have different
CRC-64 values. -/

theorem crcStepBit_testBit_zero (c : Nat) :
    (crcStepBit c).testBit 0 = c.testBit 63 := by
  have d1 : decide (0 < 64) = true := rfl
  have d2 : decide ((0 : Nat) ≥ 1) = false := rfl
  rw [crcStepBit, Nat.testBit_mod_two_pow, Nat.testBit_xor, Nat.testBit_shiftLeft,
    d1, d2]
  cases h : c.testBit 63
  · rw [if_neg (by simp [h]), Nat.zero_testBit]
    simp
  · have hp : CRC64_POLY.testBit 0 = true := by decide
    rw [if_pos rfl, hp]
    simp

theorem crcStepBit_testBit_succ (c i : Nat) (hi : i < 63) :
    (crcStepBit c).testBit (i + 1) =
      ((c.testBit i) ^^ ((if c.testBit 63 then CRC64_POLY else 0).testBit (i + 1))) := by
  have d1 : decide (i + 1 < 64) = true := by
    simp only [decide_eq_true_eq]
    omega
  have d2 : decide (i + 1 ≥ 1) = true := by
    simp only [decide_eq_true_eq]
    omega
  rw [crcStepBit, Nat.testBit_mod_two_pow, Nat.testBit_xor, Nat.testBit_shiftLeft,
    d1, d2, Nat.add_sub_cancel]
  simp

theorem crcStepBit_inj (x y : Nat) (hx : x < 2 ^ 64) (hy : y < 2 ^ 64)
    (h : crcStepBit x = crcStepBit y) : x = y := by
  have hb63 : x.testBit 63 = y.testBit 63 := by
    have h0 := congrArg (fun n => n.testBit 0) h
    simp only [crcStepBit_testBit_zero] at h0
    exact h0
  apply Nat.eq_of_testBit_eq
  intro i
  rcases Nat.lt_trichotomy i 63 with hi | hi | hi
  · have h1 := congrArg (fun n => n.testBit (i + 1)) h
    simp only [crcStepBit_testBit_succ x i hi, crcStepBit_testBit_succ y i hi, hb63] at h1
    cases hpb : (if y.testBit 63 then CRC64_POLY else 0).testBit (i + 1) <;>
      rw [hpb] at h1 <;> simpa using h1
  · rw [hi]
    exact hb63
  · have hxi : x.testBit i = false :=
      Nat.testBit_lt_two_pow (lt_of_lt_of_le hx (Nat.pow_le_pow_right (by omega) (by omega)))
    have hyi : y.testBit i = false :=
      Nat.testBit_lt_two_pow (lt_of_lt_of_le hy (Nat.pow_le_pow_right (by omega) (by omega)))
    rw [hxi, hyi]

theorem crcStepBit_iterate_inj (n : Nat) :
    ∀ x y, x < 2 ^ 64 → y < 2 ^ 64 → crcStepBit^[n] x = crcStepBit^[n] y → x = y := by
  induction n with
  | zero =>
    intro x y _ _ h
    simpa using h
  | succ n ih =>
    intro x y hx hy h
    rw [Function.iterate_succ_apply, Function.iterate_succ_apply] at h
    exact crcStepBit_inj x y hx hy (ih _ _ (crcStepBit_lt x) (crcStepBit_lt y) h)

theorem shiftLeft56_lt (b : Nat) (hb : b < 256) : b <<< 56 < 2 ^ 64 := by
  rw [Nat.shiftLeft_eq]
  calc b * 2 ^ 56 < 256 * 2 ^ 56 :=
        (Nat.mul_lt_mul_right (Nat.pos_pow_of_pos 56 (by omega))).mpr hb
    _ = 2 ^ 64 := by norm_num

theorem crcStepByte_state_inj (c1 c2 b : Nat) (h1 : c1 < 2 ^ 64) (h2 : c2 < 2 ^ 64)
    (hb : b < 256) (h : crcStepByte c1 b = crcStepByte c2 b) : c1 = c2 := by
  have hx := Nat.xor_lt_two_pow h1 (shiftLeft56_lt b hb)
  have hy := Nat.xor_lt_two_pow h2 (shiftLeft56_lt b hb)
  have heq := crcStepBit_iterate_inj 8 _ _ hx hy h
  have hc := congrArg (fun n => n ^^^ (b <<< 56)) heq
  simpa [Nat.xor_assoc] using hc

theorem crcStepByte_byte_inj (c b1 b2 : Nat) (hc : c < 2 ^ 64) (hb1 : b1 < 256)
    (hb2 : b2 < 256) (hne : b1 ≠ b2) : crcStepByte c b1 ≠ crcStepByte c b2 := by
  intro h
  have hx := Nat.xor_lt_two_pow hc (shiftLeft56_lt b1 hb1)
  have hy := Nat.xor_lt_two_pow hc (shiftLeft56_lt b2 hb2)
  have heq := crcStepBit_iterate_inj 8 _ _ hx hy h
  have h2 : b1 <<< 56 = b2 <<< 56 := by
    have hc2 := congrArg (fun n => c ^^^ n) heq
    simpa [← Nat.xor_assoc] using hc2
  rw [Nat.shiftLeft_eq, Nat.shiftLeft_eq] at h2
  exact hne (Nat.eq_of_mul_eq_mul_right (by positivity) h2)

theorem crcFold_lt (l : List Nat) : ∀ c, c < 2 ^ 64 → l.foldl crcStepByte c < 2 ^ 64 := by
  induction l with
  | nil =>
    intro c hc
    simpa using hc
  | cons b t ih =>
    intro c _
    exact ih _ (crcStepByte_lt c b)

theorem crcFold_state_inj (l : List Nat) (hl : ∀ x ∈ l, x < 256) :
    ∀ c1 c2, c1 < 2 ^ 64 → c2 < 2 ^ 64 → c1 ≠ c2 →
      l.foldl crcStepByte c1 ≠ l.foldl crcStepByte c2 := by
  induction l with
  | nil =>
    intro c1 c2 _ _ hne
    simpa using hne
  | cons b t ih =>
    intro c1 c2 h1 h2 hne
    simp only [List.foldl_cons]
    exact ih (fun x hx => hl x (by simp [hx])) _ _ (crcStepByte_lt _ _)
      (crcStepByte_lt _ _)
      fun heq => hne (crcStepByte_state_inj c1 c2 b h1 h2 (hl b (by simp)) heq)

theorem crc64_flip_ne (pre post : List Nat) (b v : Nat) (hb : b < 256) (hv : v < 256)
    (hne : b ≠ v) (hpost : ∀ x ∈ post, x < 256) :
    crc64 (pre ++ b :: post) ≠ crc64 (pre ++ v :: post) := by
  rw [crc64, crc64, List.foldl_append, List.foldl_append, List.foldl_cons,
    List.foldl_cons]
  have hs : pre.foldl crcStepByte 0 < 2 ^ 64 := crcFold_lt pre 0 (by norm_num)
  exact crcFold_state_inj post hpost _ _ (crcStepByte_lt _ _) (crcStepByte_lt _ _)
    (crcStepByte_byte_inj _ b v hs hb hv hne)

/-! ## Byte bounds and structural facts about encoded blobs -/

theorem MAGIC_lt : ∀ x ∈ MAGIC, x < 256 := by decide

theorem encodeEntries_bytes_lt (rs : List FileIndexMetadata) (eb : List Nat)
    (h : encodeEntries rs = .ok eb) (hb : ∀ r ∈ rs, ∀ x ∈ r.path, x < 256) :
    ∀ x ∈ eb, x < 256 := by
  induction rs generalizing eb with
  | nil =>
    have heb : eb = [] := by simpa [encodeEntries] using h.symm
    simp [heb]
  | cons r t ih =>
    by_cases hp : r.path.length > 65535
    · rw [encodeEntries, if_pos hp] at h
      cases h
    rw [encodeEntries, if_neg hp] at h
    cases htail : encodeEntries t with
    | error e =>
      rw [htail] at h
      cases h
    | ok tail =>
      rw [htail] at h
      have heb := (Except.ok.inj h).symm
      intro x hx
      rw [heb] at hx
      simp only [List.mem_append] at hx
      rcases hx with (((hx | hx) | hx) | hx) | hx
      · exact toBytesBE_lt _ _ x hx
      · exact toBytesBE_lt _ _ x hx
      · exact toBytesBE_lt _ _ x hx
      · exact hb r (by simp) x hx
      · exact ih tail htail (fun a ha => hb a (by simp [ha])) x hx

theorem encode_bytes_lt (rs : List FileIndexMetadata) (bs : List Nat)
    (h : encode rs = .ok bs) (hb : ∀ r ∈ rs, ∀ x ∈ r.path, x < 256) :
    ∀ x ∈ bs, x < 256 := by
  cases heb : encodeEntries rs with
  | error e =>
    rw [encode, heb] at h
    cases h
  | ok eb =>
    have hbs2 : bs = (MAGIC ++ toBytesBE 4 VERSION ++ toBytesBE 4 rs.length ++ eb) ++
        toBytesBE 8 (crc64 (MAGIC ++ toBytesBE 4 VERSION ++ toBytesBE 4 rs.length ++ eb)) := by
      rw [encode_of_entries rs eb heb] at h
      exact (Except.ok.inj h).symm
    intro x hx
    rw [hbs2] at hx
    simp only [List.mem_append] at hx
    rcases hx with (((hx | hx) | hx) | hx) | hx
    · exact MAGIC_lt x hx
    · exact toBytesBE_lt _ _ x hx
    · exact toBytesBE_lt _ _ x hx
    · exact encodeEntries_bytes_lt rs eb heb hb x hx
    · exact toBytesBE_lt _ _ x hx

/-- What any successful `decode` asserts about its input: it is at least
20 bytes, starts with the magic, carries version 1, and its trailing eight
bytes read back as the CRC-64 of everything before them. -/
theorem decode_ok_facts (cs : List Nat) (l : List FileIndexMetadata)
    (h : decode cs = .ok l) :
    20 ≤ cs.length ∧ cs.take 4 = MAGIC ∧
    fromBytesBE ((cs.drop 4).take 4) = VERSION ∧
    fromBytesBE ((cs.drop (cs.length - 8)).take 8) =
      crc64 (cs.take (cs.length - 8)) := by
  simp only [decode] at h
  by_cases h1 : cs.length < 20
  · rw [if_pos h1] at h
    cases h
  rw [if_neg h1] at h
  by_cases h2 : cs.take 4 ≠ MAGIC
  · rw [if_pos h2] at h
    cases h
  rw [if_neg h2] at h
  by_cases h3 : fromBytesBE ((cs.drop 4).take 4) ≠ VERSION
  · rw [if_pos h3] at h
    cases h
  rw [if_neg h3] at h
  by_cases h4 : fromBytesBE ((cs.drop (cs.length - 8)).take 8) ≠
      crc64 (cs.take (cs.length - 8))
  · rw [if_pos h4] at h
    cases h
  exact ⟨by omega, not_not.mp h2, not_not.mp h3, not_not.mp h4⟩

/-! ## Slicing a list that differs from another in one position -/

theorem take_flip_low {α : Type _} (pre post : List α) (x : α) (n : Nat)
    (hn : n ≤ pre.length) : (pre ++ x :: post).take n = pre.take n := by
  rw [List.take_append_eq_append_take, Nat.sub_eq_zero_of_le hn, List.take_zero,
    List.append_nil]

theorem drop_flip_low {α : Type _} (pre post : List α) (x : α) (n : Nat)
    (hn : n ≤ pre.length) : (pre ++ x :: post).drop n = pre.drop n ++ x :: post := by
  rw [List.drop_append_eq_append_drop, Nat.sub_eq_zero_of_le hn, List.drop_zero]

theorem take_flip_high {α : Type _} (pre post : List α) (x : α) (n : Nat)
    (hn : pre.length < n) :
    (pre ++ x :: post).take n = pre ++ x :: post.take (n - pre.length - 1) := by
  rw [List.take_append_eq_append_take, List.take_of_length_le (le_of_lt hn)]
  congr 1
  have hm : n - pre.length = (n - pre.length - 1) + 1 := by omega
  rw [hm, List.take_succ_cons]
  simp

theorem drop_flip_high {α : Type _} (pre post : List α) (x : α) (n : Nat)
    (hn : pre.length < n) :
    (pre ++ x :: post).drop n = post.drop (n - pre.length - 1) := by
  rw [List.drop_append_eq_append_drop, List.drop_eq_nil_of_le (le_of_lt hn),
    List.nil_append]
  have hm : n - pre.length = (n - pre.length - 1) + 1 := by omega
  rw [hm, List.drop_succ_cons]
  simp

theorem bytes_lt_parts (pre2 tta : List Nat) (v : Nat)
    (hpre2 : ∀ x ∈ pre2, x < 256) (hv : v < 256) (htta : ∀ x ∈ tta, x < 256) :
    ∀ x ∈ pre2 ++ v :: tta, x < 256 := by
  intro x hx
  rcases List.mem_append.mp hx with hx | hx
  · exact hpre2 x hx
  · rcases List.mem_cons.mp hx with rfl | hx
    · exact hv
    · exact htta x hx

theorem fromBytesBE_same_tail_contra (pre2 tta : List Nat) (b v : Nat) (hvb : v ≠ b)
    (hbytes1 : ∀ x ∈ pre2 ++ v :: tta, x < 256)
    (hbytes2 : ∀ x ∈ pre2 ++ b :: tta, x < 256)
    (h : fromBytesBE (pre2 ++ v :: tta) = fromBytesBE (pre2 ++ b :: tta)) : False := by
  have hlists := fromBytesBE_inj _ _ (by simp) hbytes1 hbytes2 h
  have h2 := List.append_cancel_left hlists
  injection h2 with h3 _
  exact hvb h3

/-! ## Claim C9 — a single flipped byte is always detected -/

/-- C9: replacing the byte at position `pre.length` of a valid encoded
blob (original byte `b`) with any different byte value `v` makes `decode`
return one of its errors; it never panics (the model is total) and never
returns a successfully decoded list.  A flip in the first four bytes fails
the magic check, one in the next four fails the version check, and any
later flip changes either the CRC-64 of the data region or the stored
checksum, but never both consistently.  The byte bound on the paths is the
`u8` invariant of Rust byte strings. -/
theorem c9_single_byte_flip (xs : List FileIndexMetadata) (bs pre post : List Nat)
    (b v : Nat) (hpaths : ∀ r ∈ xs, ∀ x ∈ r.path, x < 256)
    (henc : encode xs = .ok bs) (hsplit : bs = pre ++ b :: post)
    (hv : v < 256) (hne : v ≠ b) :
    ∃ e, decode (pre ++ v :: post) = .error e := by
  cases heb : encodeEntries xs with
  | error e =>
    rw [encode, heb] at henc
    cases henc
  | ok eb =>
  have hbs2 : bs = (MAGIC ++ toBytesBE 4 VERSION ++ toBytesBE 4 xs.length ++ eb) ++
      toBytesBE 8 (crc64 (MAGIC ++ toBytesBE 4 VERSION ++ toBytesBE 4 xs.length ++ eb)) := by
    rw [encode_of_entries xs eb heb] at henc
    exact (Except.ok.inj henc).symm
  set body := MAGIC ++ toBytesBE 4 VERSION ++ toBytesBE 4 xs.length ++ eb with hbody
  set cks := toBytesBE 8 (crc64 body) with hcks
  have hall : ∀ x ∈ bs, x < 256 := encode_bytes_lt xs bs henc hpaths
  have hbbyte : b < 256 := hall b (by rw [hsplit]; exact List.mem_append_cons_self)
  have hpre : ∀ x ∈ pre, x < 256 := fun x hx =>
    hall x (by rw [hsplit]; exact List.mem_append_left _ hx)
  have hpost : ∀ x ∈ post, x < 256 := fun x hx =>
    hall x (by rw [hsplit]; exact List.mem_append_right _ (List.mem_cons_of_mem _ hx))
  have hbodyl : body.length = 12 + eb.length := by
    simp [hbody, MAGIC]
    omega
  have hbsl : bs.length = body.length + 8 := by
    rw [hbs2]
    simp [hcks]
  have hsplitl : bs.length = pre.length + post.length + 1 := by
    rw [hsplit]
    simp
    omega
  have hflen : (pre ++ v :: post).length = bs.length := by
    rw [hsplit]
    simp
  have hassoc : bs = MAGIC ++ (toBytesBE 4 VERSION ++
      (toBytesBE 4 xs.length ++ (eb ++ cks))) := by
    rw [hbs2, hbody]
    simp [List.append_assoc]
  have hmag : bs.take 4 = MAGIC := by
    rw [hassoc]
    exact List.take_left' rfl
  have hverslice : (bs.drop 4).take 4 = toBytesBE 4 VERSION := by
    rw [hassoc, List.drop_left' (show (MAGIC : List Nat).length = 4 from rfl)]
    exact List.take_left' (toBytesBE_length 4 _)
  have hvv : fromBytesBE (toBytesBE 4 VERSION) = VERSION := by
    rw [fromBytesBE_toBytesBE]
    norm_num [VERSION]
  have hde : bs.length - 8 = body.length := by omega
  have htakeData : bs.take (bs.length - 8) = body := by
    rw [hde, hbs2]
    exact List.take_left _ _
  have hdropData : bs.drop (bs.length - 8) = cks := by
    rw [hde, hbs2]
    exact List.drop_left _ _
  have hckval : fromBytesBE (cks.take 8) = crc64 body := by
    rw [hcks, List.take_of_length_le (le_of_eq (toBytesBE_length 8 _)),
      fromBytesBE_toBytesBE]
    have h2 : (256 : Nat) ^ 8 = 2 ^ 64 := by norm_num
    rw [h2]
    exact Nat.mod_eq_of_lt (crc64_lt body)
  cases hdec : decode (pre ++ v :: post) with
  | error e => exact ⟨e, rfl⟩
  | ok l =>
  exfalso
  obtain ⟨hf1, hf2, hf3, hf4⟩ := decode_ok_facts _ l hdec
  rw [hflen] at hf4
  rcases Nat.lt_or_ge pre.length 4 with hz1 | hz2
  · rw [take_flip_high pre post v 4 hz1] at hf2
    have horig : MAGIC = pre ++ b :: post.take (4 - pre.length - 1) := by
      rw [← hmag, hsplit]
      exact take_flip_high pre post b 4 hz1
    rw [horig] at hf2
    have hcc := List.append_cancel_left hf2
    injection hcc with hcc1 _
    exact hne hcc1
  rcases Nat.lt_or_ge pre.length 8 with hz2a | hz3
  · have hfslice : ((pre ++ v :: post).drop 4).take 4 =
        pre.drop 4 ++ v :: post.take (4 - (pre.drop 4).length - 1) := by
      rw [drop_flip_low pre post v 4 hz2]
      exact take_flip_high (pre.drop 4) post v 4 (by simp; omega)
    have hoslice : toBytesBE 4 VERSION =
        pre.drop 4 ++ b :: post.take (4 - (pre.drop 4).length - 1) := by
      rw [← hverslice, hsplit, drop_flip_low pre post b 4 hz2]
      exact take_flip_high (pre.drop 4) post b 4 (by simp; omega)
    rw [hfslice] at hf3
    have ho3 : fromBytesBE (pre.drop 4 ++ b ::
        post.take (4 - (pre.drop 4).length - 1)) = VERSION := by
      rw [← hoslice]
      exact hvv
    exact fromBytesBE_same_tail_contra _ _ b v hne
      (bytes_lt_parts _ _ v (fun x hx => hpre x (List.mem_of_mem_drop hx)) hv
        (fun x hx => hpost x (List.mem_of_mem_take hx)))
      (bytes_lt_parts _ _ b (fun x hx => hpre x (List.mem_of_mem_drop hx)) hbbyte
        (fun x hx => hpost x (List.mem_of_mem_take hx)))
      (by rw [hf3, ho3])
  rcases Nat.lt_or_ge pre.length (bs.length - 8) with hz3a | hz4
  · have hfd : (pre ++ v :: post).drop (bs.length - 8) =
        post.drop (bs.length - 8 - pre.length - 1) := drop_flip_high pre post v _ hz3a
    have hod : cks = post.drop (bs.length - 8 - pre.length - 1) := by
      rw [← hdropData, hsplit]
      exact drop_flip_high pre post b _ (by rw [← hsplit]; exact hz3a)
    have hft : (pre ++ v :: post).take (bs.length - 8) =
        pre ++ v :: post.take (bs.length - 8 - pre.length - 1) :=
      take_flip_high pre post v _ hz3a
    have hot : body = pre ++ b :: post.take (bs.length - 8 - pre.length - 1) := by
      rw [← htakeData, hsplit]
      exact take_flip_high pre post b _ (by rw [← hsplit]; exact hz3a)
    rw [hfd, ← hod, hft, hckval, hot] at hf4
    exact crc64_flip_ne pre _ b v hbbyte hv (fun hbv => hne hbv.symm)
      (fun x hx => hpost x (List.mem_of_mem_take hx)) hf4
  · have hft : (pre ++ v :: post).take (bs.length - 8) = pre.take (bs.length - 8) :=
      take_flip_low pre post v _ hz4
    have hot : body = pre.take (bs.length - 8) := by
      rw [← htakeData, hsplit]
      exact take_flip_low pre post b _ (by rw [← hsplit]; exact hz4)
    have hfd : (pre ++ v :: post).drop (bs.length - 8) =
        pre.drop (bs.length - 8) ++ v :: post := drop_flip_low pre post v _ hz4
    have hod : cks = pre.drop (bs.length - 8) ++ b :: post := by
      rw [← hdropData, hsplit]
      exact drop_flip_low pre post b _ (by rw [← hsplit]; exact hz4)
    have hlen8 : (pre.drop (bs.length - 8) ++ v :: post).length = 8 := by
      simp
      omega
    rw [hfd, hft, ← hot, List.take_of_length_le (le_of_eq hlen8)] at hf4
    have hckfull : fromBytesBE cks = crc64 body := by
      have h8 : cks.take 8 = cks := List.take_of_length_le (by rw [hcks]; simp)
      rw [← h8]
      exact hckval
    have hoval : fromBytesBE (pre.drop (bs.length - 8) ++ b :: post) = crc64 body := by
      rw [← hod]
      exact hckfull
    exact fromBytesBE_same_tail_contra _ _ b v hne
      (bytes_lt_parts _ _ v (fun x hx => hpre x (List.mem_of_mem_drop hx)) hv hpost)
      (bytes_lt_parts _ _ b (fun x hx => hpre x (List.mem_of_mem_drop hx)) hbbyte hpost)
      (by rw [hf4, hoval])

set_option maxRecDepth 8000 in
/-- C9 witness: flipping the first byte of the encoding of the empty list
(the 20-byte blob `BTLX`, version 1, zero entries, checksum) to 0 makes
`decode` fail. -/
theorem c9_single_byte_flip_witness :
    ∃ e, decode [0, 84, 76, 88, 0, 0, 0, 1, 0, 0, 0, 0,
      20, 128, 106, 25, 80, 252, 3, 225] = .error e :=
  c9_single_byte_flip [] [66, 84, 76, 88, 0, 0, 0, 1, 0, 0, 0, 0,
      20, 128, 106, 25, 80, 252, 3, 225]
    [] [84, 76, 88, 0, 0, 0, 1, 0, 0, 0, 0, 20, 128, 106, 25, 80, 252, 3, 225] 66 0
    (by simp) (by decide) rfl (by norm_num) (by decide)

/-! ## Witnesses for the remaining hypothesis-carrying theorems -/

/-- C3 witness: one scanned file, absent snapshot — full index; corrupt
snapshot — the run fails. -/
theorem c3_absent_empty_corrupt_fatal_witness :
    IndexWriter.index true [⟨[97], 5, 6⟩] (fun _ => some [104]) (fun _ => some 6) 0
      ⟨[], .absent⟩ =
      .ok ⟨[] ++ ([⟨[97], 5, 6⟩] : List FileIndexMetadata).map (fun r =>
        CodeIndexDocument.from_path (fun _ => some [104]) (fun _ => some 6) 0 r.path),
        .valid [⟨[97], 5, 6⟩]⟩ ∧
    IndexWriter.index true [⟨[97], 5, 6⟩] (fun _ => some [104]) (fun _ => some 6) 0
      ⟨[], .corrupt⟩ = .error "Failed to parse file index metadata JSON" :=
  c3_absent_empty_corrupt_fatal [⟨[97], 5, 6⟩] (fun _ => some [104]) (fun _ => some 6)
    0 [] ⟨[], .corrupt⟩ rfl

/-- C5 witness: one added file whose read fails still yields a successful
run and a document with empty content. -/
theorem c5_read_failure_nonfatal_witness :
    ∃ st2, IndexWriter.index true [⟨[97], 1, 2⟩] (fun _ => none) (fun _ => none) 0
        ⟨[], .valid []⟩ = .ok st2 ∧
      (⟨[97], [], [], 0⟩ : IndexedDoc) ∈ st2.docs :=
  c5_read_failure_nonfatal [] [⟨[97], 1, 2⟩] (fun _ => none) (fun _ => none) 0 []
    ⟨[97], 1, 2⟩ (by decide) rfl

/-- C6 witness: a concrete run with failing commit errors and leaves the
state unchanged. -/
theorem c6_commit_failure_atomic_witness :
    (∃ e, IndexWriter.index false [] (fun _ => none) (fun _ => none) 0
      ⟨[], .valid []⟩ = .error e) ∧
    IndexWriter.indexState false [] (fun _ => none) (fun _ => none) 0
      ⟨[], .valid []⟩ = ⟨[], .valid []⟩ ∧
    (∀ ck st2, IndexWriter.index ck [] (fun _ => none) (fun _ => none) 0
        ⟨[], .valid []⟩ = .ok st2 → ck = true ∧ st2.snapshot = .valid []) :=
  c6_commit_failure_atomic [] (fun _ => none) (fun _ => none) 0 ⟨[], .valid []⟩

/-- C8 witness: a concrete duplicate-free list diffs against itself to the
empty delta. -/
theorem c8_self_diff_empty_witness :
    diff_file_index_metadata [⟨[97], 1, 2⟩] [⟨[97], 1, 2⟩] = ⟨[], [], []⟩ :=
  c8_self_diff_empty [⟨[97], 1, 2⟩] (by simp)

/-- C10 witness: creating a fresh index with an existing target succeeds
with all artifacts present. -/
theorem c10_create_outcomes_witness :
    (true = true → FsStorage.create ⟨false, false, false, false⟩ true =
      (.ok (), ⟨true, true, true, false⟩)) ∧
    (true = false → FsStorage.create ⟨false, false, false, false⟩ true =
      (.error .targetMissing,
        { (⟨false, false, false, false⟩ : IndexDirState) with rootDir := true })) :=
  c10_create_outcomes ⟨false, false, false, false⟩ true rfl

end Beetle
